import Mathlib

/-!
Verification of the CLE dispatcher/worker engine against its specification.

The repository has three source files:
* `src/assign3/prog1/matrix_utils_row.cu` — sequential Gaussian elimination
  with partial pivoting (`getDeterminant`) and a CUDA row-parallel kernel
  (`calcDeterminants`);
* `src/assign2/prog1/main.c` — MPI text-processing dispatcher/worker;
* `src/assign2/prog2/main.c` — MPI matrix-determinant dispatcher/worker.

IEEE doubles are modelled by exact rationals together with a Boolean flag
that records whether a division by zero was executed.  In `getDeterminant`
every division is `m[k][i] / m[i][i]` performed after partial pivoting, so a
zero denominator forces a zero (or already-NaN) numerator: the division is
`0/0 = NaN`, the NaN taints every row below the pivot and hence the final
diagonal product.  Consequently `flag = true` models "the C function returns
NaN" and `flag = false` models "the C function returns exactly the rational
value" (up to rounding, which exact arithmetic idealises away).
-/

/-- Matrix store of the C code: a flat `order × order` array of doubles,
modelled as a total function from row and column index to `ℚ`. -/
abbrev Mat := ℕ → ℕ → ℚ

/-- Row swap performed by the partial-pivoting loop of `getDeterminant`
(`matrix_utils_row.cu` lines 39-45): entries of rows `a` and `b` are
exchanged through a `double temp`, for every column `j < order`. -/
def swapRowsUpto (order a b : ℕ) (m : Mat) : Mat := fun t j =>
  if j < order then
    if t = a then m b j else if t = b then m a j else m t j
  else m t j

/-- One iteration of the pivot-search loop (`matrix_utils_row.cu` lines
32-47): if the absolute value of the diagonal element is smaller than the
absolute value of the candidate `m[k][i]`, the rows are swapped and the swap
is counted. -/
def pivotK (order i : ℕ) (st : Mat × ℕ) (k : ℕ) : Mat × ℕ :=
  if |st.1 i i| < |st.1 k i| then (swapRowsUpto order i k st.1, st.2 + 1) else st

/-- The whole pivot-search loop of step `i`: `k` runs over `i+1 … order-1`. -/
def pivotFold (order i : ℕ) (st : Mat × ℕ) : Mat × ℕ :=
  (List.range' (i + 1) (order - (i + 1))).foldl (pivotK order i) st

/-- Elimination of row `k` at step `i` (`matrix_utils_row.cu` lines 49-56):
`term = m[k][i] / m[i][i]` is computed once, then `term * m[i][j]` is
subtracted from `m[k][j]` for every column `j < order`.  Division by zero is
junk-valued here (`0` in `ℚ`); the flag recording it lives in `elimK`. -/
def elimRow (order i : ℕ) (m : Mat) (k : ℕ) : Mat := fun t j =>
  if t = k ∧ j < order then m t j - m k i / m i i * m i j else m t j

/-- One iteration of the elimination loop together with the division-by-zero
flag: the division `m[k][i] / m[i][i]` is a NaN-producing `0/0` exactly when
the pivot `m[i][i]` is zero. -/
def elimK (order i : ℕ) (st : Mat × Bool) (k : ℕ) : Mat × Bool :=
  (elimRow order i st.1 k, st.2 || decide (st.1 i i = 0))

/-- The whole elimination loop of step `i`: `k` runs over `i+1 … order-1`. -/
def elimFold (order i : ℕ) (st : Mat × Bool) : Mat × Bool :=
  (List.range' (i + 1) (order - (i + 1))).foldl (elimK order i) st

/-- State of the sequential elimination: current matrix, number of row swaps
performed so far, and whether a division by zero has been executed. -/
structure GState where
  m : Mat
  swaps : ℕ
  dz : Bool

/-- One step `i` of the outer loop of `getDeterminant`: partial pivoting
followed by Gaussian elimination of the rows below `i`. -/
def detStep (order : ℕ) (st : GState) (i : ℕ) : GState :=
  let p := pivotFold order i (st.m, st.swaps)
  let e := elimFold order i (p.1, st.dz)
  ⟨e.1, p.2, e.2⟩

/-- State of `getDeterminant` after its first `steps` outer iterations. -/
def gaussSt (order : ℕ) (m : Mat) (steps : ℕ) : GState :=
  (List.range steps).foldl (detStep order) ⟨m, 0, false⟩

/-- Product of the diagonal entries (`matrix_utils_row.cu` lines 59-63). -/
def diagProd (order : ℕ) (m : Mat) : ℚ :=
  (List.range order).foldl (fun d i => d * m i i) 1

/-- The sequential `getDeterminant` of `matrix_utils_row.cu` (lines 25-66):
runs `order - 1` elimination steps and returns `(-1)^swaps` times the
product of the final diagonal, paired with the NaN flag. -/
def getDeterminant (order : ℕ) (m : Mat) : ℚ × Bool :=
  let st := gaussSt order m (order - 1)
  ((-1 : ℚ) ^ st.swaps * diagProd order st.m, st.dz)

/-- Truncation of a double to a C `int` (conversion toward zero), as happens
to `temp` in the CUDA kernel's row swap (`int temp;` at line 87 of
`matrix_utils_row.cu`). -/
def truncQ (q : ℚ) : ℤ := q.num / q.den

/-- The row swap of the CUDA kernel (`matrix_utils_row.cu` lines 103-107):
`temp` has type `int`, so the row moved up is truncated to integers, while
the row moved down keeps its values. -/
def cudaSwap (order a b : ℕ) (m : Mat) : Mat := fun t j =>
  if j < order then
    if t = a then (truncQ (m b j) : ℚ) else if t = b then m a j else m t j
  else m t j

/-- Phase of iteration `it` executed by the lane with `threadIdx.x == it`
(`matrix_utils_row.cu` lines 90-125): if the diagonal pivot is zero the lane
looks for a row to swap below — but the C condition
`(matrix + k * order + iteration) != 0` tests the pointer, never zero, so
the first candidate `k = it + 1` is always taken (when it exists); the swap
truncates through `int temp`.  Then the pivot is multiplied into the
accumulated determinant, negated if a swap happened. -/
def cudaPhase1 (order it : ℕ) (st : Mat × ℚ) : Mat × ℚ :=
  let p0 := st.1 it it
  let sw : Mat × Bool :=
    if p0 = 0 ∧ it + 1 < order then (cudaSwap order it (it + 1) st.1, true)
    else (st.1, false)
  let p := sw.1 it it
  let d1 := if it = 0 then p else st.2 * p
  (sw.1, if sw.2 then -d1 else d1)

/-- Phase of iteration `it` executed by every lane `t > it`
(`matrix_utils_row.cu` lines 129-140): lane `t` scales its own row by
`row[it] / pivot` and subtracts the pivot row, for columns `it+1 … order-1`.
Lanes write disjoint rows and only read the (unwritten) pivot row, so the
barrier-synchronised parallel phase is a simultaneous update. -/
def cudaPhase2 (order it : ℕ) (m : Mat) : Mat := fun t j =>
  if it < t ∧ t < order ∧ it + 1 ≤ j ∧ j < order then
    m t j - m t it / m it it * m it j
  else m t j

/-- One barrier-delimited iteration of the CUDA kernel. -/
def cudaStep (order : ℕ) (st : Mat × ℚ) (it : ℕ) : Mat × ℚ :=
  let s1 := cudaPhase1 order it st
  (cudaPhase2 order it s1.1, s1.2)

/-- State (matrix, accumulated determinant) of the CUDA kernel after its
first `steps` iterations; the determinant slot starts at an arbitrary `0`
and is overwritten at iteration `0`. -/
def cudaRun (order : ℕ) (m : Mat) (steps : ℕ) : Mat × ℚ :=
  (List.range steps).foldl (cudaStep order) (m, 0)

/-- The determinant reported for one matrix by the row-parallel kernel
`calcDeterminants` (`matrix_utils_row.cu` lines 77-144): the value of
`determinants[blockIdx.x]` after all `order` iterations. -/
def calcDeterminants (order : ℕ) (m : Mat) : ℚ :=
  (cudaRun order m order).2

/-- The `ℚ`-matrix read off the first `order × order` entries of the store. -/
def toMat (order : ℕ) (m : Mat) : Matrix (Fin order) (Fin order) ℚ :=
  Matrix.of fun i j => m i.1 j.1

/-! ### Text processing (`src/assign2/prog1/main.c` and the ChunkBoundaryParser) -/

/-- Separator bytes: space, tab, newline (spec section 4.1). -/
def isSep (c : ℕ) : Bool := c == 32 || c == 9 || c == 10

/-- Vowel bytes `aeiouAEIOU` (spec section 4.1). -/
def isVowel (c : ℕ) : Bool :=
  c == 97 || c == 101 || c == 105 || c == 111 || c == 117 ||
  c == 65 || c == 69 || c == 73 || c == 79 || c == 85

/-- Alphabetic bytes `A-Z` and `a-z`. -/
def isAlpha (c : ℕ) : Bool := (65 ≤ c && c ≤ 90) || (97 ≤ c && c ≤ 122)

/-- Consonant: alphabetic and not a vowel (spec section 4.1). -/
def isCons (c : ℕ) : Bool := isAlpha c && !isVowel c

/-- The three counters of the text statistics (`nWords`, `nWordsBV`,
`nWordsEC` in `main.c`). -/
structure TextStats where
  nWords : ℕ
  nWordsBV : ℕ
  nWordsEC : ℕ
deriving DecidableEq

instance : Add TextStats :=
  ⟨fun a b => ⟨a.nWords + b.nWords, a.nWordsBV + b.nWordsBV, a.nWordsEC + b.nWordsEC⟩⟩

/-- Modelled from the spec: one character transition of the
ChunkBoundaryParser (spec section 4.1; the function `processChunk` of
`textProcUtils.c` is not part of the sources).  A word starts on a
separator-to-non-separator transition (counting it and its vowel start) and
ends on the reverse transition (classifying its last character). -/
def scanChar (prev c : ℕ) (s : TextStats) : TextStats :=
  if isSep prev && !isSep c then
    { s with nWords := s.nWords + 1,
             nWordsBV := if isVowel c then s.nWordsBV + 1 else s.nWordsBV }
  else if !isSep prev && isSep c then
    { s with nWordsEC := if isCons prev then s.nWordsEC + 1 else s.nWordsEC }
  else s

/-- Modelled from the spec: scan a byte buffer with incoming carry character
`carry`, returning the statistics together with the last character seen
(the outgoing carry). -/
def parseFrom (carry : ℕ) (bytes : List ℕ) : TextStats × ℕ :=
  bytes.foldl (fun st c => (scanChar st.2 c st.1, c)) (⟨0, 0, 0⟩, carry)

/-- Modelled from the spec: the statistics of one chunk given its carry
character (`parse(chunk, carryChar) -> TextStats`, spec section 4.1). -/
def parse (bytes : List ℕ) (carry : ℕ) : TextStats := (parseFrom carry bytes).1

/-- The dispatcher's accumulation over a chunk sequence (`main.c` lines
236-247): per-chunk statistics are summed, and the carry character is the
last character of the previous chunk; the initial carry is the space
character 32 (`main.c` line 195). -/
def chunkedStats (carry0 : ℕ) (chunks : List (List ℕ)) : TextStats × ℕ :=
  chunks.foldl
    (fun acc ch => (acc.1 + parse ch acc.2, (parseFrom acc.2 ch).2))
    (⟨0, 0, 0⟩, carry0)

/-- One text work unit as received by a worker (`main.c` lines 284-286):
the fixed-size chunk buffer, the actual chunk length, and the carry
character of the previous chunk. -/
structure TextMsg where
  buffer : List ℕ
  chunkSize : ℕ
  previousCh : ℕ

/-- Modelled from the spec: the reply a worker computes for one message —
`processChunk` scans the first `chunkSize` bytes of the buffer in the
context of the carry character. -/
def parseMsg (msg : TextMsg) : TextStats :=
  parse (msg.buffer.take msg.chunkSize) msg.previousCh

/-- One round-trip of the worker loop (`main.c` lines 278-298): the chunk's
statistics are accumulated into the worker's counters, the counters are
sent as the reply, and then reset to zero (lines 295-297). -/
def workerNext (s : TextStats) (msg : TextMsg) : TextStats × TextStats :=
  (s + parseMsg msg, ⟨0, 0, 0⟩)

/-- The sequence of replies a worker produces for a sequence of messages,
starting from counter state `s` (the counters start at zero, `main.c`
lines 272-274). -/
def workerReplies : TextStats → List TextMsg → List TextStats
  | _, [] => []
  | s, msg :: rest =>
      (workerNext s msg).1 :: workerReplies (workerNext s msg).2 rest

/-- State of the dispatcher's cursor into one text file: the bytes not yet
consumed, the `previousCh` field, and the `finished` flag. -/
structure ReadState where
  remaining : List ℕ
  previousCh : ℤ
  finished : Bool

/-- What one dispatcher round-trip puts on the wire for one chunk
(`main.c` lines 228-231): the full fixed-size buffer, the chunk size, and
the carry character saved before the read. -/
structure SentChunk where
  buffer : List ℕ
  chunkSize : ℕ
  carry : ℤ

/-- Modelled from the spec: the length kept by `getChunkSizeAndLastChar`
(`textProcUtils.c`, not in the sources) — the buffer is trimmed backward
from the end to the last separator byte so no word is split across the
boundary (spec section 4.3); a buffer with no separator is kept whole. -/
def trimLen (bytes : List ℕ) : ℕ :=
  let tail := (bytes.reverse.takeWhile (fun c => !isSep c)).length
  if tail = bytes.length then bytes.length else bytes.length - tail

/-- The C `EOF` value checked against `previousCh` (`main.c` line 224). -/
def EOFint : ℤ := -1

/-- One chunk read of the dispatcher (`main.c` lines 215-233): save the
carry, `fread` up to `maxBytesPerChunk - 7` bytes into the zeroed buffer,
mark the file finished on a short read, otherwise trim back to the last
separator (the remainder is re-read next time) and record the last
character; a recorded `EOF` also finishes the file.  The wire buffer is
the read bytes followed by the zero padding left by `memset` (lines 185
and 233). -/
def dispatchReadStep (maxB : ℕ) (st : ReadState) : SentChunk × ReadState :=
  let req := maxB - 7
  let raw := st.remaining.take req
  let short := raw.length < req
  let cut := if short then raw.length else trimLen raw
  let lastCh : ℤ :=
    match (raw.take cut).getLast? with
    | some c => (c : ℤ)
    | none => st.previousCh
  let prev2 := if short then st.previousCh else lastCh
  let fin : Bool := short || decide (prev2 = EOFint)
  (⟨raw ++ List.replicate (maxB - raw.length) 0, cut, st.previousCh⟩,
   ⟨st.remaining.drop cut, prev2, fin⟩)

/-- The work-status flag of the wire protocol: `FILES_IN_PROCESSING` or
`ALL_FILES_PROCESSED` (`main.c` lines 183 and 252). -/
inductive WorkFlag where
  | moreWork : WorkFlag
  | noMoreWork : WorkFlag
deriving DecidableEq

/-- Destination rank of the j-th chunk of a file: the send loop (`main.c`
lines 207-234) walks ranks `1 … size-1` and restarts at rank 1 each round,
so chunk `j` goes to rank `j mod nWorkers + 1`. -/
def chunkDest (nWorkers j : ℕ) : ℕ := j % nWorkers + 1

/-- Number of chunk messages worker `w` receives over a run whose files
produce the given chunk counts. -/
def sentCountTo (nWorkers w : ℕ) (files : List ℕ) : ℕ :=
  (files.map fun c => ((List.range c).filter fun j => chunkDest nWorkers j = w).length).sum

/-- The sequence of work-status flags worker `w` receives: one
`moreWork` flag per chunk message during file processing (`workStatus` is
only reassigned after the file loop, `main.c` line 252), then exactly one
terminal `noMoreWork` flag (lines 254-255). -/
def flagTraceTo (nWorkers w : ℕ) (files : List ℕ) : List WorkFlag :=
  List.replicate (sentCountTo nWorkers w files) WorkFlag.moreWork ++ [WorkFlag.noMoreWork]

/-- The worker receive loop viewed on the flag stream (`main.c` lines
278-298): a payload flag is consumed and the loop repeats; the terminal
flag breaks the loop; an exhausted stream means the worker blocks forever
in `MPI_Recv` (`none`).  Returns how many payload messages were processed
before exiting. -/
def workerExits : List WorkFlag → Option ℕ
  | [] => none
  | WorkFlag.noMoreWork :: _ => some 0
  | WorkFlag.moreWork :: rest => (workerExits rest).map (fun n => n + 1)

/-! ### Matrix dispatch loop (`src/assign2/prog2/main.c`) -/

/-- The matrix indices sent to workers for one file (`main.c` of
`assign2/prog2`, lines 160-191): `rest = numMatrix % size`,
`iterations = (numMatrix - rest) / size`; each round `iter` sends matrices
to ranks `1 … nMatrixToRead - 1` where `nMatrixToRead` is `size` for full
rounds and `rest` for the last round, with a running matrix counter
`incMCount`. -/
def dispatchedIndices (numMatrix size : ℕ) : List ℕ :=
  let rest := numMatrix % size
  let iterations := (numMatrix - rest) / size
  ((List.range (iterations + 1)).foldl
    (fun (st : List ℕ × ℕ) iter =>
      let nMatrixToRead := if iter = iterations then rest else size
      (st.1 ++ List.range' st.2 (nMatrixToRead - 1), st.2 + (nMatrixToRead - 1)))
    ([], 0)).1

/-! ### Concrete witness and counterexample inputs -/

/-- The singular 2×2 matrix `[[0, 1], [0, 0]]` — its bottom row is zero and
the maximal available pivot in column 0 is exactly zero. -/
def singularMat : Mat := fun i j => if i = 0 ∧ j = 1 then 1 else 0

/-- The well-conditioned 2×2 matrix `[[0, 3/2], [3/2, 0]]` (condition
number 1, determinant `-9/4`). -/
def offDiagMat : Mat := fun i j =>
  if i = 0 then (if j = 0 then 0 else 3 / 2) else (if j = 0 then 3 / 2 else 0)

/-! ### Truncated folds and auxiliary notions used by the proofs -/

/-- The pivot-search fold truncated to the first `len` candidates, used to
reason about the loop by induction. -/
def pivotAux (order i len : ℕ) (m : Mat) (s : ℕ) : Mat × ℕ :=
  (List.range' (i + 1) len).foldl (pivotK order i) (m, s)

/-- The elimination fold truncated to the first `len` rows below the pivot. -/
def elimAux (order i len : ℕ) (m : Mat) (dz : Bool) : Mat × Bool :=
  (List.range' (i + 1) len).foldl (elimK order i) (m, dz)

/-- Columns `0 … lvl-1` are zero strictly below the diagonal. -/
def Staircase (order lvl : ℕ) (m : Mat) : Prop :=
  ∀ j, j < lvl → ∀ t, j < t → t < order → m t j = 0

/-- The working matrix right after the partial-pivoting pass of step `i`. -/
def pivotedM (order : ℕ) (m : Mat) (i : ℕ) : Mat :=
  (pivotFold order i ((gaussSt order m i).m, (gaussSt order m i).swaps)).1

/-- The pivot value used by elimination step `i`. -/
def pivotVal (order : ℕ) (m : Mat) (i : ℕ) : ℚ := pivotedM order m i i i

/-- The 2×2 matrix `[[1, 2], [3, 4]]`, used as a witness input. -/
def sampleMat : Mat := fun i j =>
  if i = 0 then (if j = 0 then 1 else 2) else (if j = 0 then 3 else 4)

/-- Column `j` of the working matrix, as a vector of `ℚ^order`. -/
def colVec (order : ℕ) (m : Mat) (j : Fin order) : Fin order → ℚ := fun t => m t.1 j.1

/-- Two stores whose column families have the same independent subfamilies.
Row operations are invertible, so every elimination state is related to the
input in this sense. -/
def ColsEquiv (order : ℕ) (m1 m2 : Mat) : Prop :=
  ∀ (p : ℕ) (f : Fin p → Fin order),
    (LinearIndependent ℚ fun x => colVec order m1 (f x)) ↔
      (LinearIndependent ℚ fun x => colVec order m2 (f x))

/-- The shear `x ↦ x - c·x(i)` in coordinate `k`, as a linear automorphism
of `ℚ^order`. -/
def shearEquiv (order : ℕ) (k i : Fin order) (hik : k ≠ i) (c : ℚ) :
    (Fin order → ℚ) ≃ₗ[ℚ] (Fin order → ℚ) where
  toFun x := fun t => if t = k then x t - c * x i else x t
  invFun x := fun t => if t = k then x t + c * x i else x t
  map_add' x y := by
    funext t
    by_cases h : t = k <;> simp [h] <;> ring
  map_smul' r x := by
    funext t
    by_cases h : t = k <;> simp [h] <;> ring
  left_inv x := by
    funext t
    by_cases h : t = k
    · simp [h, if_neg (hik.symm : i ≠ k)]
      try ring
    · simp [h]
  right_inv x := by
    funext t
    by_cases h : t = k
    · simp [h, if_neg (hik.symm : i ≠ k)]
      try ring
    · simp [h]

/-- The leading `order - 1` columns of a store, as vectors of `ℚ^order`. -/
def leadCols (order : ℕ) (m : Mat) : Fin (order - 1) → (Fin order → ℚ) :=
  fun j => colVec order m ⟨j.1, Nat.lt_of_lt_of_le j.isLt (Nat.sub_le order 1)⟩

/-- Extension by zero of a vector of `ℚ^i` to `ℚ^order`. -/
def extZero (order i : ℕ) : (Fin i → ℚ) →ₗ[ℚ] (Fin order → ℚ) where
  toFun w := fun t => if h : t.1 < i then w ⟨t.1, h⟩ else 0
  map_add' x y := by
    funext t
    by_cases h : t.1 < i <;> simp [h]
  map_smul' r x := by
    funext t
    by_cases h : t.1 < i <;> simp [h]

/-- The input matrix with rows `a` and `b` exchanged — the transformation
the claim applies to the matrix before calling the kernel. -/
def rowSwapped (a b : ℕ) (m : Mat) : Mat := fun t j =>
  if t = a then m b j else if t = b then m a j else m t j

/-- One step of pivot-free Gaussian elimination with full row updates —
the reference the CUDA kernel refines when its zero-pivot path is never
taken (the kernel skips the already-eliminated columns; this form updates
them too, zeroing the column below the pivot). -/
def npStep (order : ℕ) (m : Mat) (i : ℕ) : Mat := (elimFold order i (m, false)).1

/-- Pivot-free elimination after `steps` steps. -/
def npRun (order : ℕ) (m : Mat) (steps : ℕ) : Mat :=
  (List.range steps).foldl (npStep order) m

/-- The pivot read at step `i` of the pivot-free elimination. -/
def npPivot (order : ℕ) (m : Mat) (i : ℕ) : ℚ := npRun order m i i i

/-! ### Theorems -/

theorem TextStats.add_mk (a b c d e f : ℕ) :
    (⟨a, b, c⟩ + ⟨d, e, f⟩ : TextStats) = ⟨a + d, b + e, c + f⟩ := rfl

theorem TextStats.zero_add_stats (s : TextStats) : (⟨0, 0, 0⟩ : TextStats) + s = s := by
  cases s
  simp [TextStats.add_mk]

theorem TextStats.add_zero_stats (s : TextStats) : s + (⟨0, 0, 0⟩ : TextStats) = s := by
  cases s
  simp [TextStats.add_mk]

theorem TextStats.add_assoc_stats (a b c : TextStats) : a + b + c = a + (b + c) := by
  cases a
  cases b
  cases c
  simp only [TextStats.add_mk, TextStats.mk.injEq]
  omega

theorem scanChar_add (p c : ℕ) (s t : TextStats) :
    scanChar p c (s + t) = s + scanChar p c t := by
  simp only [scanChar]
  split_ifs <;>
    (cases s
     cases t
     simp only [TextStats.add_mk, TextStats.mk.injEq, and_true, true_and]
     try omega)

theorem parseFrom_shift (bytes : List ℕ) (c0 : ℕ) (s : TextStats) :
    bytes.foldl (fun st c => (scanChar st.2 c st.1, c)) (s, c0) =
      (s + (parseFrom c0 bytes).1, (parseFrom c0 bytes).2) := by
  induction bytes generalizing s c0 with
  | nil => simp [parseFrom, TextStats.add_zero_stats]
  | cons c rest ih =>
      simp only [parseFrom, List.foldl_cons]
      rw [ih c (scanChar c0 c s), ih c (scanChar c0 c ⟨0, 0, 0⟩)]
      have hs : scanChar c0 c s = s + scanChar c0 c ⟨0, 0, 0⟩ := by
        have h2 := scanChar_add c0 c s ⟨0, 0, 0⟩
        rwa [TextStats.add_zero_stats] at h2
      rw [hs, TextStats.add_assoc_stats]

theorem parseFrom_append (c0 : ℕ) (xs ys : List ℕ) :
    parseFrom c0 (xs ++ ys) =
      ((parseFrom c0 xs).1 + (parseFrom (parseFrom c0 xs).2 ys).1,
       (parseFrom (parseFrom c0 xs).2 ys).2) := by
  unfold parseFrom
  rw [List.foldl_append]
  have h := parseFrom_shift ys (parseFrom c0 xs).2 (parseFrom c0 xs).1
  unfold parseFrom at h
  rw [h]

theorem chunked_shift (chunks : List (List ℕ)) (c0 : ℕ) (s : TextStats) :
    chunks.foldl (fun acc ch => (acc.1 + parse ch acc.2, (parseFrom acc.2 ch).2)) (s, c0) =
      (s + (chunkedStats c0 chunks).1, (chunkedStats c0 chunks).2) := by
  induction chunks generalizing s c0 with
  | nil => simp [chunkedStats, TextStats.add_zero_stats]
  | cons ch rest ih =>
      simp only [chunkedStats, List.foldl_cons]
      rw [ih (parseFrom c0 ch).2 (s + parse ch c0),
        ih (parseFrom c0 ch).2 (⟨0, 0, 0⟩ + parse ch c0)]
      rw [TextStats.zero_add_stats, TextStats.add_assoc_stats]

theorem chunkedStats_cons (c0 : ℕ) (ch : List ℕ) (rest : List (List ℕ)) :
    chunkedStats c0 (ch :: rest) =
      (parse ch c0 + (chunkedStats (parseFrom c0 ch).2 rest).1,
       (chunkedStats (parseFrom c0 ch).2 rest).2) := by
  conv_lhs => rw [chunkedStats]
  rw [List.foldl_cons]
  rw [chunked_shift rest (parseFrom c0 ch).2 (⟨0, 0, 0⟩ + parse ch c0)]
  rw [TextStats.zero_add_stats]

theorem parseFrom_flatten (c0 : ℕ) (chunks : List (List ℕ)) :
    parseFrom c0 chunks.flatten = chunkedStats c0 chunks := by
  induction chunks generalizing c0 with
  | nil => simp [parseFrom, chunkedStats]
  | cons ch rest ih =>
      rw [List.flatten_cons, parseFrom_append, ih, chunkedStats_cons]
      rfl

theorem workerExits_replicate (n : ℕ) (rest : List WorkFlag) :
    workerExits (List.replicate n WorkFlag.moreWork ++ rest) =
      (workerExits rest).map (fun k => k + n) := by
  induction n with
  | zero =>
      simp only [List.replicate, List.nil_append]
      cases workerExits rest <;> simp
  | succ n ih =>
      rw [List.replicate_succ, List.cons_append]
      show (workerExits (List.replicate n WorkFlag.moreWork ++ rest)).map (fun k => k + 1) = _
      rw [ih]
      cases workerExits rest <;> simp <;> omega

/-- C4: for every text input and every boundary-respecting chunking (each
non-final chunk ends in a separator byte), the statistics of the whole
input processed as one chunk equal the dispatcher's sum of the per-chunk
statistics, with carry characters propagated from chunk to chunk and the
initial carry being the space character.  This holds for all three
counters at once (`TextStats` bundles `wordCount`, `vowelStartCount`,
`consonantEndCount`). -/
theorem C4_chunk_sum_preservation (chunks : List (List ℕ))
    (hb : ∀ ch ∈ chunks.dropLast, ∃ c, ch.getLast? = some c ∧ isSep c = true) :
    parse chunks.flatten 32 = (chunkedStats 32 chunks).1 := by
  unfold parse
  rw [parseFrom_flatten]

theorem C4_witness :
    (∀ ch ∈ ([[84, 104, 101, 32], [99, 97, 116]] : List (List ℕ)).dropLast,
      ∃ c, ch.getLast? = some c ∧ isSep c = true) ∧
    parse ([[84, 104, 101, 32], [99, 97, 116]] : List (List ℕ)).flatten 32 =
      (chunkedStats 32 [[84, 104, 101, 32], [99, 97, 116]]).1 :=
  ⟨by decide, C4_chunk_sum_preservation [[84, 104, 101, 32], [99, 97, 116]] (by decide)⟩

/-- C10: a text worker's reply stream is exactly the per-message statistics:
each reply is a function of that message's chunk bytes, actual length and
carry character only (`parseMsg`), because the counters are reset to zero
after every reply (`main.c` lines 295-297), so no information from earlier
chunks leaks into later replies. -/
theorem C10_worker_replies_stateless (msgs : List TextMsg) :
    workerReplies ⟨0, 0, 0⟩ msgs = msgs.map parseMsg := by
  induction msgs with
  | nil => rfl
  | cons msg rest ih =>
      simp only [workerReplies, workerNext, List.map_cons]
      rw [TextStats.zero_add_stats, ih]

/-- C7: each dispatcher read requests `maxBytesPerChunk - 7` bytes, which
is at most `maxBytesPerChunk`, and whenever the read returns fewer bytes
than requested the chunk is marked as the final chunk of the input
(`main.c` lines 216-220). -/
theorem C7_short_read_marks_final (maxB : ℕ) (st : ReadState) (h : 8 ≤ maxB) :
    maxB - 7 ≤ maxB ∧
    ((st.remaining.take (maxB - 7)).length < maxB - 7 →
      (dispatchReadStep maxB st).2.finished = true) := by
  refine ⟨Nat.sub_le maxB 7, fun hlt => ?_⟩
  have hfin : (dispatchReadStep maxB st).2.finished
      = (decide ((st.remaining.take (maxB - 7)).length < maxB - 7)
         || decide ((dispatchReadStep maxB st).2.previousCh = EOFint)) := rfl
  rw [hfin, decide_eq_true hlt, Bool.true_or]

theorem C7_witness :
    8 ≤ 16 ∧
    (16 - 7 ≤ 16 ∧
      ((([1, 2, 3] : List ℕ).take (16 - 7)).length < 16 - 7 →
        (dispatchReadStep 16 ⟨[1, 2, 3], 32, false⟩).2.finished = true)) :=
  ⟨by decide, C7_short_read_marks_final 16 ⟨[1, 2, 3], 32, false⟩ (by decide)⟩

/-- C9: the chunk bytes actually read number at most
`maxBytesPerChunk - 7`, strictly less than the `maxBytesPerChunk` bytes
put on the wire, and every wire byte beyond the read length is zero
(the buffer is zeroed by `memset` before each read, `main.c` lines 185
and 233), so a worker receiving the full buffer never overruns. -/
theorem C9_wire_buffer_bounds (maxB : ℕ) (st : ReadState) (h : 8 ≤ maxB) :
    (dispatchReadStep maxB st).1.buffer.length = maxB ∧
    (st.remaining.take (maxB - 7)).length ≤ maxB - 7 ∧
    maxB - 7 < maxB ∧
    ∀ i, (st.remaining.take (maxB - 7)).length ≤ i → i < maxB →
      (dispatchReadStep maxB st).1.buffer.getD i 1 = 0 := by
  have hlen : (st.remaining.take (maxB - 7)).length ≤ maxB - 7 := by
    simp [List.length_take]
  refine ⟨?_, hlen, by omega, ?_⟩
  · simp only [dispatchReadStep]
    simp only [List.length_append, List.length_replicate]
    omega
  · intro i hi himax
    simp only [dispatchReadStep]
    rw [List.getD_eq_getElem?_getD, List.getElem?_append_right hi,
      List.getElem?_replicate]
    rw [List.length_take] at hi
    have h2 : i - (st.remaining.take (maxB - 7)).length <
        maxB - (st.remaining.take (maxB - 7)).length := by
      rw [List.length_take]
      omega
    rw [if_pos h2]
    rfl

theorem C9_witness :
    8 ≤ 16 ∧
    ((dispatchReadStep 16 ⟨[1, 2, 3], 32, false⟩).1.buffer.length = 16 ∧
      ((([1, 2, 3] : List ℕ)).take (16 - 7)).length ≤ 16 - 7 ∧
      16 - 7 < 16 ∧
      ∀ i, ((([1, 2, 3] : List ℕ)).take (16 - 7)).length ≤ i → i < 16 →
        (dispatchReadStep 16 ⟨[1, 2, 3], 32, false⟩).1.buffer.getD i 1 = 0) :=
  ⟨by decide, C9_wire_buffer_bounds 16 ⟨[1, 2, 3], 32, false⟩ (by decide)⟩

/-- C8: every worker's flag stream carries the terminal no-more-work flag
exactly once, as its last message (so no payload message follows it), and
the worker receive loop exits exactly upon observing that flag, after
processing every payload message sent to it — the loop has no other exit
path. -/
theorem C8_terminal_flag_protocol (nWorkers w : ℕ) (files : List ℕ)
    (h1 : 1 ≤ w) (h2 : w ≤ nWorkers) :
    (flagTraceTo nWorkers w files).count WorkFlag.noMoreWork = 1 ∧
    (flagTraceTo nWorkers w files).getLast? = some WorkFlag.noMoreWork ∧
    workerExits (flagTraceTo nWorkers w files) = some (sentCountTo nWorkers w files) := by
  refine ⟨?_, ?_, ?_⟩
  · simp [flagTraceTo, List.count_replicate]
  · exact List.getLast?_concat _
  · rw [flagTraceTo, workerExits_replicate]
    simp [workerExits]

theorem C8_witness :
    (1 ≤ 1 ∧ 1 ≤ 2) ∧
    ((flagTraceTo 2 1 [3, 2]).count WorkFlag.noMoreWork = 1 ∧
      (flagTraceTo 2 1 [3, 2]).getLast? = some WorkFlag.noMoreWork ∧
      workerExits (flagTraceTo 2 1 [3, 2]) = some (sentCountTo 2 1 [3, 2])) :=
  ⟨⟨by decide, by decide⟩, C8_terminal_flag_protocol 2 1 [3, 2] (by decide) (by decide)⟩

/-- C3 fails on the code: with one matrix in the file and two MPI processes
(one dispatcher, one worker — the minimum legal pool), the dispatch loop of
`assign2/prog2/main.c` sends no matrix at all, because the inner loop bound
`nProc < nMatrixToRead` counts the dispatcher rank among the available
slots (`rest = 1 % 2 = 1`, `iterations = 0`, and the single round runs
`for nProc = 1; nProc < 1` — zero sends).  Index 0 is never dispatched and
no determinant is recorded, contradicting the claim that every index in
`[0, numMatrices)` is dispatched exactly once. -/
theorem C3_one_matrix_never_dispatched : dispatchedIndices 1 2 = [] := by decide

/-- C2 fails on the code: `getDeterminant` has no zero-pivot check.  On the
singular matrix `[[0, 1], [0, 0]]` the partial-pivoting pass leaves a zero
pivot (no row below has larger absolute value), and the elimination then
executes `term = 0 / 0` — in IEEE arithmetic a NaN that propagates to the
returned product.  The division-by-zero flag of the model records this:
the function does not return the defined numeric result `0.0` the claim
requires. -/
theorem C2_singular_matrix_divides_by_zero :
    getDeterminant 2 singularMat = (0, true) := by
  norm_num [getDeterminant, gaussSt, detStep, pivotFold, pivotK, elimFold, elimK, elimRow,
    swapRowsUpto, diagProd, List.range_succ, List.range', singularMat]

/-- C1 fails on the code: on `[[0, 3/2], [3/2, 0]]` the sequential
`getDeterminant` returns the exact determinant `-9/4` (no division by
zero occurs), while the CUDA kernel returns `-3/2`: its zero-pivot path
tests a pointer instead of the entry (always true, so it swaps with the
very next row whether or not that helps) and swaps through an `int`
temporary, truncating `3/2` to `1`.  The two results differ in magnitude
by far more than any rounding tolerance. -/
theorem C1_parallel_differs_from_sequential :
    calcDeterminants 2 offDiagMat = -(3 / 2) ∧
    getDeterminant 2 offDiagMat = (-(9 / 4), false) ∧
    (-(3 / 2) : ℚ) ≠ -(9 / 4) := by
  refine ⟨?_, ?_, by norm_num⟩
  · norm_num [calcDeterminants, cudaRun, cudaStep, cudaPhase1, cudaPhase2, cudaSwap, truncQ,
      List.range_succ, List.range', offDiagMat]
  · norm_num [getDeterminant, gaussSt, detStep, pivotFold, pivotK, elimFold, elimK, elimRow,
      swapRowsUpto, diagProd, List.range_succ, List.range', offDiagMat]

theorem pivotFold_eq_aux (order i : ℕ) (m : Mat) (s : ℕ) :
    pivotFold order i (m, s) = pivotAux order i (order - (i + 1)) m s := rfl

theorem swapRowsUpto_fst (order a b : ℕ) (m : Mat) (j : ℕ) (hj : j < order) :
    swapRowsUpto order a b m a j = m b j := by
  simp [swapRowsUpto, hj]

theorem swapRowsUpto_snd (order a b : ℕ) (m : Mat) (j : ℕ) (hj : j < order) (hab : a ≠ b) :
    swapRowsUpto order a b m b j = m a j := by
  have : b ≠ a := hab.symm
  simp [swapRowsUpto, hj, this]

theorem swapRowsUpto_other (order a b : ℕ) (m : Mat) (t j : ℕ)
    (ht1 : t ≠ a) (ht2 : t ≠ b) :
    swapRowsUpto order a b m t j = m t j := by
  simp [swapRowsUpto, ht1, ht2]

theorem pivotAux_succ (order i len : ℕ) (m : Mat) (s : ℕ) :
    pivotAux order i (len + 1) m s
      = pivotK order i (pivotAux order i len m s) (i + 1 + len) := by
  unfold pivotAux
  rw [List.range'_1_concat, List.foldl_append, List.foldl_cons, List.foldl_nil]

/-- Invariant of the pivot-search loop after `len` candidates: the pivot
row holds an original row whose column-`i` entry is maximal in absolute
value among the candidates seen, unseen rows are untouched, rows above `i`
are untouched, and every working row in `[i, order)` is one of the
original rows of `[i, order)`. -/
theorem pivotAux_spec (order i : ℕ) :
    ∀ (len : ℕ) (m : Mat) (s : ℕ), i + 1 + len ≤ order →
    ∃ k, i ≤ k ∧ k < i + 1 + len ∧
      (∀ j, j < order → (pivotAux order i len m s).1 i j = m k j) ∧
      (∀ t, i ≤ t → t < i + 1 + len → |m t i| ≤ |m k i|) ∧
      (∀ t, i + 1 + len ≤ t → ∀ j, (pivotAux order i len m s).1 t j = m t j) ∧
      (∀ t, t < i → ∀ j, (pivotAux order i len m s).1 t j = m t j) ∧
      (∀ t, i ≤ t → t < order → ∃ k0, i ≤ k0 ∧ k0 < order ∧
        ∀ j, j < order → (pivotAux order i len m s).1 t j = m k0 j) := by
  intro len
  induction len with
  | zero =>
      intro m s _
      refine ⟨i, le_refl i, by omega, fun j _ => rfl, ?_, fun t _ j => rfl,
        fun t _ j => rfl, fun t ht1 ht2 => ⟨t, ht1, ht2, fun j _ => rfl⟩⟩
      intro t ht1 ht2
      have h3 : t = i := by omega
      subst h3
      exact le_refl _
  | succ len ih =>
      intro m s hord
      have hord' : i + 1 + len ≤ order := by omega
      obtain ⟨k, hk1, hk2, hrow, hmax, hun, hlow, hperm⟩ := ih m s hord'
      have hrow_i : (pivotAux order i len m s).1 i i = m k i := hrow i (by omega)
      have hnew : (pivotAux order i len m s).1 (i + 1 + len) i = m (i + 1 + len) i :=
        hun _ (le_refl _) i
      rw [pivotAux_succ]
      unfold pivotK
      by_cases hsw : |(pivotAux order i len m s).1 i i|
          < |(pivotAux order i len m s).1 (i + 1 + len) i|
      · rw [if_pos hsw]
        dsimp only
        rw [hrow_i, hnew] at hsw
        have hne : i ≠ i + 1 + len := by omega
        refine ⟨i + 1 + len, by omega, by omega, ?_, ?_, ?_, ?_, ?_⟩
        · intro j hj
          rw [swapRowsUpto_fst order i (i + 1 + len) _ j hj]
          exact hun _ (le_refl _) j
        · intro t ht1 ht2
          by_cases ht3 : t < i + 1 + len
          · exact le_trans (hmax t ht1 ht3) (le_of_lt hsw)
          · have h4 : t = i + 1 + len := by omega
            subst h4
            exact le_refl _
        · intro t ht j
          rw [swapRowsUpto_other order i (i + 1 + len) _ t j (by omega) (by omega)]
          exact hun t (by omega) j
        · intro t ht j
          rw [swapRowsUpto_other order i (i + 1 + len) _ t j (by omega) (by omega)]
          exact hlow t ht j
        · intro t ht1 ht2
          by_cases h5 : t = i
          · rw [h5]
            refine ⟨i + 1 + len, by omega, by omega, fun j hj => ?_⟩
            rw [swapRowsUpto_fst order i (i + 1 + len) _ j hj]
            exact hun _ (le_refl _) j
          · by_cases h6 : t = i + 1 + len
            · subst h6
              refine ⟨k, hk1, by omega, fun j hj => ?_⟩
              rw [swapRowsUpto_snd order i (i + 1 + len) _ j hj hne]
              exact hrow j hj
            · obtain ⟨k0, hk01, hk02, hk0row⟩ := hperm t ht1 ht2
              exact ⟨k0, hk01, hk02, fun j hj => by
                rw [swapRowsUpto_other order i (i + 1 + len) _ t j h5 h6]
                exact hk0row j hj⟩
      · rw [if_neg hsw]
        rw [hrow_i, hnew] at hsw
        refine ⟨k, hk1, by omega, hrow, ?_, ?_, hlow, hperm⟩
        · intro t ht1 ht2
          by_cases ht3 : t < i + 1 + len
          · exact hmax t ht1 ht3
          · have h4 : t = i + 1 + len := by omega
            subst h4
            exact le_of_not_lt hsw
        · intro t ht j
          exact hun t (by omega) j

theorem toMat_swapRowsUpto (order a b : ℕ) (ha : a < order) (hb : b < order) (m : Mat) :
    toMat order (swapRowsUpto order a b m) =
      (toMat order m).submatrix (Equiv.swap ⟨a, ha⟩ ⟨b, hb⟩) id := by
  ext t j
  simp only [toMat, Matrix.of_apply, Matrix.submatrix_apply, id_eq, swapRowsUpto,
    Equiv.swap_apply_def, Fin.ext_iff]
  rw [if_pos j.isLt]
  by_cases h1 : t.1 = a
  · simp [h1]
  · by_cases h2 : t.1 = b
    · simp only [h1, h2, if_false, if_true]
      split_ifs with h3 <;> simp [h3]
    · simp [h1, h2]

theorem det_swapRowsUpto (order a b : ℕ) (ha : a < order) (hb : b < order)
    (hab : a ≠ b) (m : Mat) :
    (toMat order (swapRowsUpto order a b m)).det = -(toMat order m).det := by
  rw [toMat_swapRowsUpto order a b ha hb]
  rw [Matrix.det_permute]
  rw [Equiv.Perm.sign_swap (by simp [Fin.ext_iff, hab])]
  simp

theorem pivotAux_det (order i : ℕ) :
    ∀ (len : ℕ) (m : Mat) (s : ℕ), i + 1 + len ≤ order →
      ((-1 : ℚ) ^ (pivotAux order i len m s).2) *
          (toMat order (pivotAux order i len m s).1).det
        = (-1 : ℚ) ^ s * (toMat order m).det := by
  intro len
  induction len with
  | zero => intro m s _; rfl
  | succ len ih =>
      intro m s hord
      have hord' : i + 1 + len ≤ order := by omega
      rw [pivotAux_succ]
      unfold pivotK
      by_cases hsw : |(pivotAux order i len m s).1 i i|
          < |(pivotAux order i len m s).1 (i + 1 + len) i|
      · rw [if_pos hsw]
        dsimp only
        rw [det_swapRowsUpto order i (i + 1 + len) (by omega) (by omega) (by omega)]
        rw [pow_succ]
        rw [← ih m s hord']
        ring
      · rw [if_neg hsw]
        exact ih m s hord'

theorem elimFold_eq_aux (order i : ℕ) (m : Mat) (dz : Bool) :
    elimFold order i (m, dz) = elimAux order i (order - (i + 1)) m dz := rfl

theorem elimAux_succ (order i len : ℕ) (m : Mat) (dz : Bool) :
    elimAux order i (len + 1) m dz
      = elimK order i (elimAux order i len m dz) (i + 1 + len) := by
  unfold elimAux
  rw [List.range'_1_concat, List.foldl_append, List.foldl_cons, List.foldl_nil]

theorem elimRow_other (order i k : ℕ) (m : Mat) (t j : ℕ) (ht : t ≠ k) :
    elimRow order i m k t j = m t j := by
  simp [elimRow, ht]

theorem elimRow_self (order i k : ℕ) (m : Mat) (j : ℕ) (hj : j < order) :
    elimRow order i m k k j = m k j - m k i / m i i * m i j := by
  simp [elimRow, hj]

theorem elimRow_high (order i k : ℕ) (m : Mat) (t j : ℕ) (hj : order ≤ j) :
    elimRow order i m k t j = m t j := by
  simp [elimRow, Nat.not_lt.mpr hj]

/-- Rows at or above the pivot row, and rows beyond the processed range,
are untouched by the elimination fold. -/
theorem elimAux_untouched (order i : ℕ) :
    ∀ (len : ℕ) (m : Mat) (dz : Bool) (t : ℕ), (t ≤ i ∨ i + 1 + len ≤ t) →
      ∀ j, (elimAux order i len m dz).1 t j = m t j := by
  intro len
  induction len with
  | zero => intro m dz t _ j; rfl
  | succ len ih =>
      intro m dz t ht j
      rw [elimAux_succ]
      unfold elimK
      dsimp only
      rw [elimRow_other order i (i + 1 + len) _ t j (by omega)]
      exact ih m dz t (by omega) j

/-- Entries in columns at or beyond `order` are never written. -/
theorem elimAux_high (order i : ℕ) :
    ∀ (len : ℕ) (m : Mat) (dz : Bool) (t j : ℕ), order ≤ j →
      (elimAux order i len m dz).1 t j = m t j := by
  intro len
  induction len with
  | zero => intro m dz t j _; rfl
  | succ len ih =>
      intro m dz t j hj
      rw [elimAux_succ]
      unfold elimK
      dsimp only
      rw [elimRow_high order i (i + 1 + len) _ t j hj]
      exact ih m dz t j hj

/-- The value of each eliminated row: `row k := row k - (m k i / m i i) * row i`,
computed from the phase-input matrix. -/
theorem elimAux_row (order i : ℕ) :
    ∀ (len : ℕ) (m : Mat) (dz : Bool) (k : ℕ), i + 1 ≤ k → k < i + 1 + len →
      ∀ j, j < order → (elimAux order i len m dz).1 k j
        = m k j - m k i / m i i * m i j := by
  intro len
  induction len with
  | zero => intro m dz k hk1 hk2; omega
  | succ len ih =>
      intro m dz k hk1 hk2 j hj
      rw [elimAux_succ]
      unfold elimK
      dsimp only
      by_cases hk3 : k = i + 1 + len
      · rw [hk3]
        rw [elimRow_self order i (i + 1 + len) _ j hj]
        rw [elimAux_untouched order i len m dz (i + 1 + len) (by omega) j,
          elimAux_untouched order i len m dz (i + 1 + len) (by omega) i,
          elimAux_untouched order i len m dz i (by omega) i,
          elimAux_untouched order i len m dz i (by omega) j]
      · rw [elimRow_other order i (i + 1 + len) _ k j hk3]
        exact ih m dz k hk1 (by omega) j hj

/-- The division-by-zero flag after the elimination fold: set exactly when
at least one row was eliminated and the pivot is zero. -/
theorem elimAux_dz (order i : ℕ) :
    ∀ (len : ℕ) (m : Mat) (dz : Bool),
      (elimAux order i len m dz).2
        = (dz || (decide (0 < len) && decide (m i i = 0))) := by
  intro len
  induction len with
  | zero => intro m dz; simp [elimAux]
  | succ len ih =>
      intro m dz
      rw [elimAux_succ]
      unfold elimK
      dsimp only
      rw [ih m dz]
      rw [elimAux_untouched order i len m dz i (by omega) i]
      cases dz <;> cases hc : decide (m i i = 0) <;> cases hl : decide (0 < len) <;>
        simp_all

theorem toMat_elimRow (order i k : ℕ) (hi : i < order) (hk : k < order)
    (hik : k ≠ i) (m : Mat) :
    toMat order (elimRow order i m k) =
      (toMat order m).updateRow ⟨k, hk⟩
        ((toMat order m) ⟨k, hk⟩ + (-(m k i / m i i)) • (toMat order m) ⟨i, hi⟩) := by
  ext t j
  by_cases ht : t = (⟨k, hk⟩ : Fin order)
  · rw [ht]
    rw [Matrix.updateRow_self]
    simp only [toMat, Matrix.of_apply, Pi.add_apply, Pi.smul_apply, smul_eq_mul]
    rw [elimRow_self order i k m j.1 j.isLt]
    ring
  · rw [Matrix.updateRow_ne ht]
    simp only [toMat, Matrix.of_apply]
    rw [elimRow_other order i k m t.1 j.1 (by simpa [Fin.ext_iff] using ht)]

theorem det_elimRow (order i k : ℕ) (hi : i < order) (hk : k < order)
    (hik : k ≠ i) (m : Mat) :
    (toMat order (elimRow order i m k)).det = (toMat order m).det := by
  rw [toMat_elimRow order i k hi hk hik]
  exact Matrix.det_updateRow_add_smul_self _ (by simp [Fin.ext_iff, hik]) _

theorem elimAux_det (order i : ℕ) (hi : i < order) :
    ∀ (len : ℕ) (m : Mat) (dz : Bool), i + 1 + len ≤ order →
      (toMat order (elimAux order i len m dz).1).det = (toMat order m).det := by
  intro len
  induction len with
  | zero => intro m dz _; rfl
  | succ len ih =>
      intro m dz hord
      rw [elimAux_succ]
      unfold elimK
      dsimp only
      rw [det_elimRow order i (i + 1 + len) hi (by omega) (by omega)]
      exact ih m dz (by omega)

theorem gaussSt_succ (order : ℕ) (m : Mat) (steps : ℕ) :
    gaussSt order m (steps + 1) = detStep order (gaussSt order m steps) steps := by
  unfold gaussSt
  rw [List.range_succ, List.foldl_append, List.foldl_cons, List.foldl_nil]

theorem pivotFold_staircase (order i : ℕ) (hi : i < order) (m : Mat) (s : ℕ)
    (hst : Staircase order i m) :
    Staircase order i (pivotFold order i (m, s)).1 := by
  have hlen : i + 1 + (order - (i + 1)) ≤ order := by omega
  obtain ⟨k, hk1, hk2, hrow, hmax, hun, hlow, hperm⟩ :=
    pivotAux_spec order i (order - (i + 1)) m s hlen
  intro j hj t ht1 ht2
  rw [pivotFold_eq_aux]
  by_cases hti : t < i
  · rw [hlow t hti j]
    exact hst j hj t ht1 ht2
  · obtain ⟨k0, hk01, hk02, hk0row⟩ := hperm t (by omega) ht2
    rw [hk0row j (by omega)]
    exact hst j hj k0 (by omega) hk02

/-- If the pivot is zero after partial pivoting, the whole pivot column of
the working rows is zero. -/
theorem pivotFold_zero_col (order i : ℕ) (hi : i < order) (m : Mat) (s : ℕ)
    (hz : (pivotFold order i (m, s)).1 i i = 0) :
    ∀ t, i ≤ t → t < order → (pivotFold order i (m, s)).1 t i = 0 := by
  have hlen : i + 1 + (order - (i + 1)) ≤ order := by omega
  obtain ⟨k, hk1, hk2, hrow, hmax, hun, hlow, hperm⟩ :=
    pivotAux_spec order i (order - (i + 1)) m s hlen
  rw [pivotFold_eq_aux] at hz
  have hki : m k i = 0 := by rw [← hrow i hi]; exact hz
  have hall : ∀ t, i ≤ t → t < order → m t i = 0 := by
    intro t ht1 ht2
    have h2 := hmax t ht1 (by omega)
    rw [hki] at h2
    simpa using h2
  intro t ht1 ht2
  rw [pivotFold_eq_aux]
  obtain ⟨k0, hk01, hk02, hk0row⟩ := hperm t ht1 ht2
  rw [hk0row i hi]
  exact hall k0 hk01 hk02

theorem elimFold_staircase (order i : ℕ) (hi : i < order) (m : Mat) (dz : Bool)
    (hst : Staircase order i m)
    (hcol : m i i ≠ 0 ∨ ∀ t, i ≤ t → t < order → m t i = 0) :
    Staircase order (i + 1) (elimFold order i (m, dz)).1 := by
  intro j hj t ht1 ht2
  rw [elimFold_eq_aux]
  by_cases hti : t ≤ i
  · rw [elimAux_untouched order i _ m dz t (Or.inl hti) j]
    exact hst j (by omega) t ht1 ht2
  · rw [elimAux_row order i _ m dz t (by omega) (by omega) j (by omega)]
    by_cases hji : j = i
    · rw [hji]
      rcases hcol with hpiv | hzero
      · rw [div_mul_cancel₀ _ hpiv]
        ring
      · rw [hzero t (by omega) ht2, hzero i (le_refl i) hi]
        simp
    · have hji2 : j < i := by omega
      rw [hst j hji2 t (by omega) ht2, hst j hji2 i (by omega) hi]
      simp

theorem gauss_staircase (order : ℕ) (m : Mat) :
    ∀ steps, steps ≤ order - 1 → Staircase order steps (gaussSt order m steps).m := by
  intro steps
  induction steps with
  | zero => intro _ j hj; omega
  | succ steps ih =>
      intro hs
      have hi : steps < order := by omega
      rw [gaussSt_succ]
      unfold detStep
      dsimp only
      have hstB : Staircase order steps
          (pivotFold order steps ((gaussSt order m steps).m, (gaussSt order m steps).swaps)).1 :=
        pivotFold_staircase order steps hi _ _ (ih (by omega))
      apply elimFold_staircase order steps hi _ _ hstB
      by_cases hz : (pivotFold order steps
          ((gaussSt order m steps).m, (gaussSt order m steps).swaps)).1 steps steps = 0
      · exact Or.inr (pivotFold_zero_col order steps hi _ _ hz)
      · exact Or.inl hz

theorem gauss_det (order : ℕ) (m : Mat) :
    ∀ steps, steps ≤ order - 1 →
      (-1 : ℚ) ^ (gaussSt order m steps).swaps *
          (toMat order (gaussSt order m steps).m).det
        = (toMat order m).det := by
  intro steps
  induction steps with
  | zero => simp [gaussSt]
  | succ steps ih =>
      intro hs
      have hi : steps < order := by omega
      rw [gaussSt_succ]
      unfold detStep
      dsimp only
      rw [elimFold_eq_aux, elimAux_det order steps hi _ _ _ (by omega)]
      have h2 := pivotAux_det order steps (order - (steps + 1))
        (gaussSt order m steps).m (gaussSt order m steps).swaps (by omega)
      rw [← pivotFold_eq_aux] at h2
      rw [h2]
      exact ih (by omega)

theorem diagProd_eq_range_prod (order : ℕ) (m : Mat) :
    diagProd order m = ∏ t ∈ Finset.range order, m t t := by
  induction order with
  | zero => rfl
  | succ n ih =>
      unfold diagProd at *
      rw [List.range_succ, List.foldl_append, List.foldl_cons, List.foldl_nil,
        Finset.prod_range_succ, ih]

theorem diagProd_eq_det_diag (order : ℕ) (m : Mat) :
    diagProd order m = ∏ t : Fin order, toMat order m t t := by
  rw [diagProd_eq_range_prod, ← Fin.prod_univ_eq_prod_range (fun t => m t t) order]
  rfl

/-- Correctness of the sequential kernel over exact arithmetic: the value
returned by `getDeterminant` is the determinant of the input matrix — for
every input, including singular ones, because a zero pivot (after partial
pivoting its whole column is zero) leaves the junk-valued eliminations
inert and a zero on the diagonal. -/
theorem getDeterminant_fst_eq_det (order : ℕ) (m : Mat) :
    (getDeterminant order m).1 = (toMat order m).det := by
  have hst := gauss_staircase order m (order - 1) (le_refl _)
  have htri : (toMat order (gaussSt order m (order - 1)).m).BlockTriangular id := by
    intro t j hjt
    have hj : (j : ℕ) < order - 1 := by
      have := t.isLt
      simp only [id_eq] at hjt
      omega
    exact hst j.1 hj t.1 hjt t.isLt
  have hdet := Matrix.det_of_upperTriangular htri
  show (-1 : ℚ) ^ (gaussSt order m (order - 1)).swaps *
      diagProd order (gaussSt order m (order - 1)).m = _
  rw [diagProd_eq_det_diag, ← hdet]
  exact gauss_det order m (order - 1) (le_refl _)

/-- Rows strictly above the current step are never modified again: the row
a step leaves in pivot position is the row the final matrix carries. -/
theorem gauss_row_frozen (order : ℕ) (m : Mat) :
    ∀ steps, steps ≤ order - 1 → ∀ i, i < steps → ∀ j,
      (gaussSt order m steps).m i j = pivotedM order m i i j := by
  intro steps
  induction steps with
  | zero => intro _ i hi; omega
  | succ steps ih =>
      intro hs i hi j
      have hso : steps < order := by omega
      rw [gaussSt_succ]
      unfold detStep
      dsimp only
      by_cases hieq : i = steps
      · rw [elimFold_eq_aux,
          elimAux_untouched order steps _ _ _ i (Or.inl (by omega)) j, hieq]
        rfl
      · have hilt : i < steps := by omega
        rw [elimFold_eq_aux,
          elimAux_untouched order steps _ _ _ i (Or.inl (by omega)) j]
        have hlen : steps + 1 + (order - (steps + 1)) ≤ order := by omega
        obtain ⟨k, _, _, _, _, _, hlow, _⟩ :=
          pivotAux_spec order steps (order - (steps + 1))
            (gaussSt order m steps).m (gaussSt order m steps).swaps hlen
        rw [pivotFold_eq_aux, hlow i hilt j]
        exact ih (by omega) i hilt j

/-- C5: at each elimination step `i` the sequential kernel places in the
pivot position a row of the current working matrix whose column-`i` entry
is maximal in absolute value among rows `i … order-1` (the loop may swap
several times, flipping the running sign at each swap, which the swap
counter records), and the returned value is `(-1)^swaps` times the product
of the final diagonal. -/
theorem C5_partial_pivoting_max_and_sign (order : ℕ) (m : Mat) (i : ℕ)
    (hi : i < order - 1) :
    (∃ k, i ≤ k ∧ k < order ∧
      (∀ j, j < order → pivotedM order m i i j = (gaussSt order m i).m k j) ∧
      (∀ r, i ≤ r → r < order →
        |(gaussSt order m i).m r i| ≤ |(gaussSt order m i).m k i|)) ∧
    (getDeterminant order m).1 =
      (-1 : ℚ) ^ (gaussSt order m (order - 1)).swaps *
        diagProd order (gaussSt order m (order - 1)).m := by
  have hlen : i + 1 + (order - (i + 1)) ≤ order := by omega
  obtain ⟨k, hk1, hk2, hrow, hmax, _, _, _⟩ :=
    pivotAux_spec order i (order - (i + 1))
      (gaussSt order m i).m (gaussSt order m i).swaps hlen
  refine ⟨⟨k, hk1, by omega, ?_, ?_⟩, rfl⟩
  · intro j hj
    rw [pivotedM, pivotFold_eq_aux]
    exact hrow j hj
  · intro r hr1 hr2
    exact hmax r hr1 (by omega)

theorem C5_witness :
    (0 < 2 - 1) ∧
    ((∃ k, 0 ≤ k ∧ k < 2 ∧
      (∀ j, j < 2 → pivotedM 2 sampleMat 0 0 j = (gaussSt 2 sampleMat 0).m k j) ∧
      (∀ r, 0 ≤ r → r < 2 →
        |(gaussSt 2 sampleMat 0).m r 0| ≤ |(gaussSt 2 sampleMat 0).m k 0|)) ∧
    (getDeterminant 2 sampleMat).1 =
      (-1 : ℚ) ^ (gaussSt 2 sampleMat (2 - 1)).swaps *
        diagProd 2 (gaussSt 2 sampleMat (2 - 1)).m) :=
  ⟨by decide, C5_partial_pivoting_max_and_sign 2 sampleMat 0 (by decide)⟩

theorem colsEquiv_refl (order : ℕ) (m : Mat) : ColsEquiv order m m :=
  fun _ _ => Iff.rfl

theorem colsEquiv_trans {order : ℕ} {m1 m2 m3 : Mat}
    (h1 : ColsEquiv order m1 m2) (h2 : ColsEquiv order m2 m3) :
    ColsEquiv order m1 m3 :=
  fun p f => (h1 p f).trans (h2 p f)

theorem colsEquiv_of_linearEquiv (order : ℕ) (m1 m2 : Mat)
    (L : (Fin order → ℚ) ≃ₗ[ℚ] (Fin order → ℚ))
    (h : ∀ j : Fin order, colVec order m1 j = L (colVec order m2 j)) :
    ColsEquiv order m1 m2 := by
  intro p f
  have hh : (fun x => colVec order m1 (f x))
      = (L : (Fin order → ℚ) →ₗ[ℚ] (Fin order → ℚ)) ∘ (fun x => colVec order m2 (f x)) := by
    funext x
    exact h (f x)
  rw [hh]
  exact LinearMap.linearIndependent_iff _ L.ker

/-- Swapping two rows composes every column with a coordinate permutation. -/
theorem colsEquiv_swapRowsUpto (order a b : ℕ) (ha : a < order) (hb : b < order)
    (m : Mat) : ColsEquiv order (swapRowsUpto order a b m) m := by
  apply colsEquiv_of_linearEquiv order _ m
    (LinearEquiv.funCongrLeft ℚ ℚ (Equiv.swap ⟨a, ha⟩ ⟨b, hb⟩))
  intro j
  funext t
  show swapRowsUpto order a b m t.1 j.1
      = colVec order m j (Equiv.swap (⟨a, ha⟩ : Fin order) ⟨b, hb⟩ t)
  simp only [colVec, swapRowsUpto, Equiv.swap_apply_def, Fin.ext_iff]
  rw [if_pos j.isLt]
  by_cases h1 : t.1 = a
  · simp [h1]
  · by_cases h2 : t.1 = b
    · simp only [h1, h2, if_false, if_true]
      split_ifs with h3 <;> simp [h3]
    · simp [h1, h2]

/-- Eliminating one row composes every column with a shear. -/
theorem colsEquiv_elimRow (order i k : ℕ) (hi : i < order) (hk : k < order)
    (hik : k ≠ i) (m : Mat) : ColsEquiv order (elimRow order i m k) m := by
  apply colsEquiv_of_linearEquiv order _ m
    (shearEquiv order ⟨k, hk⟩ ⟨i, hi⟩ (by simp [Fin.ext_iff, hik]) (m k i / m i i))
  intro j
  funext t
  show elimRow order i m k t.1 j.1 = _
  by_cases h : t = (⟨k, hk⟩ : Fin order)
  · have ht : t.1 = k := by rw [h]
    rw [show elimRow order i m k t.1 j.1 = m t.1 j.1 - m k i / m i i * m i j.1 from by
      rw [ht]; exact elimRow_self order i k m j.1 j.isLt]
    simp [shearEquiv, colVec, h, ht]
    try ring
  · rw [elimRow_other order i k m t.1 j.1 (by simpa [Fin.ext_iff] using h)]
    simp [shearEquiv, colVec, h]

theorem colsEquiv_pivotAux (order i : ℕ) (hi : i < order) :
    ∀ (len : ℕ) (m : Mat) (s : ℕ), i + 1 + len ≤ order →
      ColsEquiv order (pivotAux order i len m s).1 m := by
  intro len
  induction len with
  | zero => intro m s _; exact colsEquiv_refl order m
  | succ len ih =>
      intro m s hord
      rw [pivotAux_succ]
      unfold pivotK
      by_cases hsw : |(pivotAux order i len m s).1 i i|
          < |(pivotAux order i len m s).1 (i + 1 + len) i|
      · rw [if_pos hsw]
        dsimp only
        exact colsEquiv_trans
          (colsEquiv_swapRowsUpto order i (i + 1 + len) hi (by omega) _)
          (ih m s (by omega))
      · rw [if_neg hsw]
        exact ih m s (by omega)

theorem colsEquiv_elimAux (order i : ℕ) (hi : i < order) :
    ∀ (len : ℕ) (m : Mat) (dz : Bool), i + 1 + len ≤ order →
      ColsEquiv order (elimAux order i len m dz).1 m := by
  intro len
  induction len with
  | zero => intro m dz _; exact colsEquiv_refl order m
  | succ len ih =>
      intro m dz hord
      rw [elimAux_succ]
      unfold elimK
      dsimp only
      exact colsEquiv_trans
        (colsEquiv_elimRow order i (i + 1 + len) hi (by omega) (by omega) _)
        (ih m dz (by omega))

theorem colsEquiv_gaussSt (order : ℕ) (m : Mat) :
    ∀ steps, steps ≤ order - 1 → ColsEquiv order (gaussSt order m steps).m m := by
  intro steps
  induction steps with
  | zero => intro _; exact colsEquiv_refl order m
  | succ steps ih =>
      intro hs
      have hi : steps < order := by omega
      have h1 : ColsEquiv order
          (pivotFold order steps ((gaussSt order m steps).m, (gaussSt order m steps).swaps)).1
          (gaussSt order m steps).m := by
        rw [pivotFold_eq_aux]
        exact colsEquiv_pivotAux order steps hi _ _ _ (by omega)
      have h2 : ColsEquiv order
          (elimFold order steps
            ((pivotFold order steps
                ((gaussSt order m steps).m, (gaussSt order m steps).swaps)).1,
             (gaussSt order m steps).dz)).1
          (pivotFold order steps ((gaussSt order m steps).m, (gaussSt order m steps).swaps)).1 := by
        rw [elimFold_eq_aux]
        exact colsEquiv_elimAux order steps hi _ _ _ (by omega)
      rw [gaussSt_succ]
      exact colsEquiv_trans h2 (colsEquiv_trans h1 (ih (by omega)))

theorem colsEquiv_pivotedM (order : ℕ) (m : Mat) (i : ℕ) (hi : i < order)
    (hi2 : i ≤ order - 1) : ColsEquiv order (pivotedM order m i) m := by
  unfold pivotedM
  rw [pivotFold_eq_aux]
  exact colsEquiv_trans
    (colsEquiv_pivotAux order i hi _ _ _ (by omega))
    (colsEquiv_gaussSt order m i hi2)

theorem gauss_dz_iff (order : ℕ) (m : Mat) :
    ∀ steps, steps ≤ order - 1 →
      ((gaussSt order m steps).dz = true ↔ ∃ i, i < steps ∧ pivotVal order m i = 0) := by
  intro steps
  induction steps with
  | zero =>
      intro _
      constructor
      · intro h
        exact absurd h (by simp [gaussSt])
      · rintro ⟨i, hi, _⟩
        omega
  | succ steps ih =>
      intro hs
      have hlt : steps + 1 < order := by omega
      rw [gaussSt_succ]
      unfold detStep
      dsimp only
      rw [elimFold_eq_aux, elimAux_dz]
      have hpos : decide (0 < order - (steps + 1)) = true := by
        simp
        omega
      rw [hpos, Bool.true_and]
      have hpv : (pivotFold order steps
          ((gaussSt order m steps).m, (gaussSt order m steps).swaps)).1 steps steps
          = pivotVal order m steps := rfl
      rw [hpv]
      rw [Bool.or_eq_true, ih (by omega), decide_eq_true_eq]
      constructor
      · rintro (⟨i, hi, hz⟩ | hz)
        · exact ⟨i, by omega, hz⟩
        · exact ⟨steps, by omega, hz⟩
      · rintro ⟨i, hi, hz⟩
        by_cases hieq : i = steps
        · right
          rw [← hieq]
          exact hz
        · left
          exact ⟨i, by omega, hz⟩

/-- Columns of a staircase matrix whose leading diagonal entries are
nonzero are linearly independent (look at the largest index carrying a
nonzero coefficient). -/
theorem staircase_leadCols_indep (order : ℕ) (u : Mat)
    (hst : Staircase order (order - 1) u)
    (hd : ∀ j, j < order - 1 → u j j ≠ 0) :
    LinearIndependent ℚ (leadCols order u) := by
  rw [Fintype.linearIndependent_iff]
  intro g hg
  by_contra hne
  push_neg at hne
  obtain ⟨x0, hx0⟩ := hne
  classical
  have hS : (Finset.univ.filter (fun x => g x ≠ 0)).Nonempty :=
    ⟨x0, by simp [hx0]⟩
  set xm := (Finset.univ.filter (fun x => g x ≠ 0)).max' hS with hxm
  have hgm : g xm ≠ 0 := by
    have h2 := (Finset.univ.filter (fun x => g x ≠ 0)).max'_mem hS
    rw [← hxm] at h2
    simpa using h2
  have hmaxall : ∀ y, xm < y → g y = 0 := by
    intro y hy
    by_contra hgy
    have h3 : y ∈ Finset.univ.filter (fun x => g x ≠ 0) := by simp [hgy]
    have h4 := (Finset.univ.filter (fun x => g x ≠ 0)).le_max' y h3
    rw [← hxm] at h4
    exact absurd hy (not_lt.mpr h4)
  have hrow := congrFun hg ⟨xm.1, Nat.lt_of_lt_of_le xm.isLt (Nat.sub_le order 1)⟩
  rw [Finset.sum_apply] at hrow
  rw [Finset.sum_eq_single xm] at hrow
  · simp only [Pi.smul_apply, smul_eq_mul, leadCols, colVec, Pi.zero_apply] at hrow
    exact absurd hrow (mul_ne_zero hgm (hd xm.1 xm.isLt))
  · intro b _ hb
    simp only [Pi.smul_apply, smul_eq_mul, leadCols, colVec]
    rcases lt_or_gt_of_ne hb with hlt | hgt
    · rw [hst b.1 b.isLt xm.1 hlt (Nat.lt_of_lt_of_le xm.isLt (Nat.sub_le order 1))]
      ring
    · rw [hmaxall b hgt]
      ring
  · intro hnotin
    exact absurd (Finset.mem_univ xm) hnotin

/-- A family of `i + 1` vectors of `ℚ^order` supported on the first `i`
coordinates cannot be linearly independent. -/
theorem not_indep_of_low_support (order i : ℕ) (hio : i < order)
    (v : Fin (i + 1) → (Fin order → ℚ))
    (hv : ∀ x, ∀ t : Fin order, i ≤ t.1 → v x t = 0) :
    ¬ LinearIndependent ℚ v := by
  intro hind
  have hfact : v = (extZero order i) ∘
      (fun x => fun r : Fin i => v x ⟨r.1, lt_trans r.isLt hio⟩) := by
    funext x
    funext t
    by_cases h : t.1 < i
    · simp [extZero, h]
    · simp [extZero, h, hv x t (by omega)]
  rw [hfact] at hind
  have hw := hind.of_comp (extZero order i)
  have hcard := hw.fintype_card_le_finrank
  rw [Module.finrank_fin_fun] at hcard
  simp at hcard

/-- At a breakdown step (zero pivot after partial pivoting) the leading
`i + 1` columns of the working matrix are dependent: columns `0 … i-1` are
staircase columns and column `i` vanishes from row `i` down. -/
theorem breakdown_cols_dependent (order : ℕ) (m : Mat) (i : ℕ) (hi : i < order - 1)
    (hz : pivotVal order m i = 0) :
    ¬ LinearIndependent ℚ (fun x : Fin (i + 1) =>
      colVec order (pivotedM order m i)
        ⟨x.1, lt_of_lt_of_le x.isLt (by omega)⟩) := by
  have hio : i < order := by omega
  apply not_indep_of_low_support order i hio
  intro x t ht
  show pivotedM order m i t.1 x.1 = 0
  by_cases hx : x.1 = i
  · rw [hx]
    exact pivotFold_zero_col order i hio _ _ hz t.1 ht t.isLt
  · have hxlt : x.1 < i := by
      have := x.isLt
      omega
    have hstB : Staircase order i (pivotedM order m i) :=
      pivotFold_staircase order i hio _ _ (gauss_staircase order m i (by omega))
    exact hstB x.1 hxlt t.1 (by omega) t.isLt

/-- The NaN flag of the sequential kernel is clear exactly when the first
`order - 1` columns of the input are linearly independent — breakdown of
partial pivoting is a rank condition on the input, not on the elimination
path. -/
theorem dz_false_iff_leadCols_indep (order : ℕ) (m : Mat) :
    ((getDeterminant order m).2 = false ↔ LinearIndependent ℚ (leadCols order m)) := by
  have hdz : (getDeterminant order m).2 = (gaussSt order m (order - 1)).dz := rfl
  constructor
  · intro hfalse
    have hnopiv : ∀ i, i < order - 1 → pivotVal order m i ≠ 0 := by
      intro i hi hz
      have h2 := (gauss_dz_iff order m (order - 1) (le_refl _)).mpr ⟨i, hi, hz⟩
      rw [hdz] at hfalse
      rw [h2] at hfalse
      exact absurd hfalse (by simp)
    have hUst : Staircase order (order - 1) (gaussSt order m (order - 1)).m :=
      gauss_staircase order m (order - 1) (le_refl _)
    have hUd : ∀ j, j < order - 1 → (gaussSt order m (order - 1)).m j j ≠ 0 := by
      intro j hj
      rw [gauss_row_frozen order m (order - 1) (le_refl _) j hj j]
      exact hnopiv j hj
    have hUindep := staircase_leadCols_indep order _ hUst hUd
    have hEquiv := colsEquiv_gaussSt order m (order - 1) (le_refl _)
    exact (hEquiv (order - 1)
      (fun j => ⟨j.1, Nat.lt_of_lt_of_le j.isLt (Nat.sub_le order 1)⟩)).mp hUindep
  · intro hindep
    by_contra htrue
    rw [Bool.not_eq_false, hdz] at htrue
    obtain ⟨i, hi, hz⟩ := (gauss_dz_iff order m (order - 1) (le_refl _)).mp htrue
    have hio : i < order := by omega
    have hdep := breakdown_cols_dependent order m i hi hz
    have hEquiv := colsEquiv_pivotedM order m i hio (by omega)
    have hdepm : ¬ LinearIndependent ℚ (fun x : Fin (i + 1) =>
        colVec order m ⟨x.1, lt_of_lt_of_le x.isLt (by omega)⟩) := by
      intro hind
      exact hdep ((hEquiv (i + 1)
        (fun x => ⟨x.1, lt_of_lt_of_le x.isLt (by omega)⟩)).mpr hind)
    apply hdepm
    have hsub := hindep.comp
      (fun x : Fin (i + 1) => (⟨x.1, lt_of_lt_of_le x.isLt (by omega)⟩ : Fin (order - 1)))
      (by
        intro a b hab
        simp only [Fin.mk.injEq] at hab
        exact Fin.ext hab)
    exact hsub

theorem toMat_rowSwapped (order a b : ℕ) (ha : a < order) (hb : b < order) (m : Mat) :
    toMat order (rowSwapped a b m) =
      (toMat order m).submatrix (Equiv.swap ⟨a, ha⟩ ⟨b, hb⟩) id := by
  ext t j
  simp only [toMat, Matrix.of_apply, Matrix.submatrix_apply, id_eq, rowSwapped,
    Equiv.swap_apply_def, Fin.ext_iff]
  by_cases h1 : t.1 = a
  · simp [h1]
  · by_cases h2 : t.1 = b
    · simp only [h1, h2, if_false, if_true]
      split_ifs with h3 <;> simp [h3]
    · simp [h1, h2]

theorem det_rowSwapped (order a b : ℕ) (ha : a < order) (hb : b < order)
    (hab : a ≠ b) (m : Mat) :
    (toMat order (rowSwapped a b m)).det = -(toMat order m).det := by
  rw [toMat_rowSwapped order a b ha hb]
  rw [Matrix.det_permute]
  rw [Equiv.Perm.sign_swap (by simp [Fin.ext_iff, hab])]
  simp

theorem colsEquiv_rowSwapped (order a b : ℕ) (ha : a < order) (hb : b < order)
    (m : Mat) : ColsEquiv order (rowSwapped a b m) m := by
  apply colsEquiv_of_linearEquiv order _ m
    (LinearEquiv.funCongrLeft ℚ ℚ (Equiv.swap ⟨a, ha⟩ ⟨b, hb⟩))
  intro j
  funext t
  show rowSwapped a b m t.1 j.1
      = colVec order m j (Equiv.swap (⟨a, ha⟩ : Fin order) ⟨b, hb⟩ t)
  simp only [colVec, rowSwapped, Equiv.swap_apply_def, Fin.ext_iff]
  by_cases h1 : t.1 = a
  · simp [h1]
  · by_cases h2 : t.1 = b
    · simp only [h1, h2, if_false, if_true]
      split_ifs with h3 <;> simp [h3]
    · simp [h1, h2]

/-- C6: swapping two distinct rows of the input flips the sign and keeps
the magnitude of the reported determinant, and leaves the NaN flag
unchanged (a run breaks down on the swapped input exactly when it breaks
down on the original, both then reporting NaN). -/
theorem C6_row_swap_flips_sign (order a b : ℕ) (m : Mat) (h2 : 2 ≤ order)
    (ha : a < order) (hb : b < order) (hab : a ≠ b) :
    getDeterminant order (rowSwapped a b m)
      = (-(getDeterminant order m).1, (getDeterminant order m).2) := by
  have hval : (getDeterminant order (rowSwapped a b m)).1 = -(getDeterminant order m).1 := by
    rw [getDeterminant_fst_eq_det, getDeterminant_fst_eq_det]
    exact det_rowSwapped order a b ha hb hab m
  have hiff : LinearIndependent ℚ (leadCols order (rowSwapped a b m))
      ↔ LinearIndependent ℚ (leadCols order m) :=
    colsEquiv_rowSwapped order a b ha hb m (order - 1)
      (fun j => ⟨j.1, Nat.lt_of_lt_of_le j.isLt (Nat.sub_le order 1)⟩)
  have hflagiff : ((getDeterminant order (rowSwapped a b m)).2 = false)
      ↔ ((getDeterminant order m).2 = false) :=
    (dz_false_iff_leadCols_indep order (rowSwapped a b m)).trans
      (hiff.trans (dz_false_iff_leadCols_indep order m).symm)
  have hflag : (getDeterminant order (rowSwapped a b m)).2 = (getDeterminant order m).2 := by
    cases hA : (getDeterminant order (rowSwapped a b m)).2 <;>
      cases hB : (getDeterminant order m).2 <;> simp_all
  exact Prod.ext hval hflag

theorem C6_witness :
    (2 ≤ 2 ∧ 0 < 2 ∧ 1 < 2 ∧ (0 : ℕ) ≠ 1) ∧
    getDeterminant 2 (rowSwapped 0 1 sampleMat)
      = (-(getDeterminant 2 sampleMat).1, (getDeterminant 2 sampleMat).2) :=
  ⟨by decide, C6_row_swap_flips_sign 2 0 1 sampleMat (by decide) (by decide)
    (by decide) (by decide)⟩

theorem npRun_succ (order : ℕ) (m : Mat) (s : ℕ) :
    npRun order m (s + 1) = npStep order (npRun order m s) s := by
  unfold npRun
  rw [List.range_succ, List.foldl_append, List.foldl_cons, List.foldl_nil]

theorem cudaRun_succ (order : ℕ) (m : Mat) (s : ℕ) :
    cudaRun order m (s + 1) = cudaStep order (cudaRun order m s) s := by
  unfold cudaRun
  rw [List.range_succ, List.foldl_append, List.foldl_cons, List.foldl_nil]

theorem cudaStep_no_swap (order it : ℕ) (st : Mat × ℚ)
    (hns : ¬(st.1 it it = 0 ∧ it + 1 < order)) :
    cudaStep order st it = (cudaPhase2 order it st.1,
      if it = 0 then st.1 it it else st.2 * st.1 it it) := by
  simp only [cudaStep, cudaPhase1, if_neg hns, Bool.false_eq_true, if_false]

theorem np_row_frozen (order : ℕ) (m : Mat) (i : ℕ) :
    ∀ steps, i ≤ steps → ∀ j, npRun order m steps i j = npRun order m i i j := by
  intro steps
  induction steps with
  | zero =>
      intro h j
      have h0 : i = 0 := by omega
      rw [h0]
  | succ steps ih =>
      intro h j
      by_cases hieq : i = steps + 1
      · rw [hieq]
      · rw [npRun_succ]
        show (elimFold order steps (npRun order m steps, false)).1 i j = _
        rw [elimFold_eq_aux, elimAux_untouched order steps _ _ _ i (Or.inl (by omega)) j]
        exact ih (by omega) j

theorem np_staircase (order : ℕ) (m : Mat)
    (hnp : ∀ i, i < order - 1 → npPivot order m i ≠ 0) :
    ∀ steps, steps ≤ order - 1 → Staircase order steps (npRun order m steps) := by
  intro steps
  induction steps with
  | zero => intro _ j hj; omega
  | succ steps ih =>
      intro hs
      have hso : steps < order := by omega
      rw [npRun_succ]
      show Staircase order (steps + 1) (elimFold order steps (npRun order m steps, false)).1
      apply elimFold_staircase order steps hso _ _ (ih (by omega))
      left
      exact hnp steps (by omega)

theorem np_det (order : ℕ) (m : Mat) :
    ∀ steps, steps ≤ order - 1 →
      (toMat order (npRun order m steps)).det = (toMat order m).det := by
  intro steps
  induction steps with
  | zero => intro _; rfl
  | succ steps ih =>
      intro hs
      have hso : steps < order := by omega
      rw [npRun_succ]
      show (toMat order (elimFold order steps (npRun order m steps, false)).1).det = _
      rw [elimFold_eq_aux, elimAux_det order steps hso _ _ _ (by omega)]
      exact ih (by omega)

theorem colsEquiv_npRun (order : ℕ) (m : Mat) :
    ∀ steps, steps ≤ order - 1 → ColsEquiv order (npRun order m steps) m := by
  intro steps
  induction steps with
  | zero => intro _; exact colsEquiv_refl order m
  | succ steps ih =>
      intro hs
      have hso : steps < order := by omega
      rw [npRun_succ]
      show ColsEquiv order (elimFold order steps (npRun order m steps, false)).1 m
      rw [elimFold_eq_aux]
      exact colsEquiv_trans
        (colsEquiv_elimAux order steps hso _ _ _ (by omega))
        (ih (by omega))

/-- Simulation of the CUDA kernel by pivot-free elimination, when no CUDA
iteration reads a zero pivot: after `s` barrier-delimited iterations the two
working matrices agree on all columns `≥ s` (the kernel leaves stale values
only in the already-eliminated columns, which it never reads again), and
the accumulated determinant is the product of the pivots read so far. -/
theorem cuda_np_sim (order : ℕ) (m : Mat)
    (hclean : ∀ it, it < order - 1 → (cudaRun order m it).1 it it ≠ 0) :
    ∀ s, s ≤ order →
      (∀ t j, s ≤ j → (cudaRun order m s).1 t j = npRun order m s t j) ∧
      (1 ≤ s → (cudaRun order m s).2 = ∏ it ∈ Finset.range s, npPivot order m it) := by
  intro s
  induction s with
  | zero => intro _; exact ⟨fun t j _ => rfl, by omega⟩
  | succ s ih =>
      intro hs
      obtain ⟨iha, ihb⟩ := ih (by omega)
      have hso : s < order := by omega
      have hpiv_eq : (cudaRun order m s).1 s s = npPivot order m s := iha s s (le_refl s)
      have hns : ¬((cudaRun order m s).1 s s = 0 ∧ s + 1 < order) := by
        rintro ⟨hz, hlt⟩
        exact hclean s (by omega) hz
      rw [cudaRun_succ, cudaStep_no_swap order s _ hns]
      constructor
      · intro t j hj
        rw [npRun_succ]
        show cudaPhase2 order s (cudaRun order m s).1 t j
            = (elimFold order s (npRun order m s, false)).1 t j
        rw [elimFold_eq_aux]
        unfold cudaPhase2
        by_cases h1 : s < t ∧ t < order ∧ s + 1 ≤ j ∧ j < order
        · rw [if_pos h1]
          obtain ⟨ht1, ht2, hj1, hj2⟩ := h1
          rw [elimAux_row order s _ _ _ t (by omega) (by omega) j hj2]
          rw [iha t j (by omega), iha t s (le_refl s), iha s s (le_refl s),
            iha s j (by omega)]
        · rw [if_neg h1]
          by_cases hj2 : j < order
          · by_cases ht1 : s < t
            · by_cases ht2 : t < order
              · exact absurd ⟨ht1, ht2, by omega, hj2⟩ h1
              · rw [elimAux_untouched order s _ _ _ t (Or.inr (by omega)) j]
                exact iha t j (by omega)
            · rw [elimAux_untouched order s _ _ _ t (Or.inl (by omega)) j]
              exact iha t j (by omega)
          · rw [elimAux_high order s _ _ _ t j (by omega)]
            exact iha t j (by omega)
      · intro _
        show (if s = 0 then (cudaRun order m s).1 s s
            else (cudaRun order m s).2 * (cudaRun order m s).1 s s)
          = ∏ it ∈ Finset.range (s + 1), npPivot order m it
        by_cases hs0 : s = 0
        · rw [if_pos hs0]
          rw [hpiv_eq, hs0]
          simp
        · rw [if_neg hs0]
          rw [ihb (by omega), hpiv_eq, Finset.prod_range_succ]

/-- C1, amended: when the row-parallel kernel never reads a zero pivot at
iterations `0 … order-2` (so its broken zero-pivot swap path never
triggers and no division by zero occurs), it returns exactly the
determinant the sequential kernel returns, and the sequential elimination
performs no division by zero either. -/
theorem C1_parallel_matches_sequential_without_zero_pivots (order : ℕ) (m : Mat)
    (h1 : 1 ≤ order)
    (hclean : ∀ it, it < order - 1 → (cudaRun order m it).1 it it ≠ 0) :
    calcDeterminants order m = (getDeterminant order m).1 ∧
    (getDeterminant order m).2 = false := by
  have hsim := cuda_np_sim order m hclean
  have hnp : ∀ i, i < order - 1 → npPivot order m i ≠ 0 := by
    intro i hi
    show npRun order m i i i ≠ 0
    rw [← (hsim i (by omega)).1 i i (le_refl i)]
    exact hclean i hi
  have hU : ∀ it, it < order → npRun order m (order - 1) it it = npPivot order m it := by
    intro it _
    exact np_row_frozen order m it (order - 1) (by omega) it
  have hprod : ∏ it ∈ Finset.range order, npPivot order m it
      = ∏ it ∈ Finset.range order, npRun order m (order - 1) it it :=
    Finset.prod_congr rfl (fun it hit => (hU it (Finset.mem_range.mp hit)).symm)
  have hstU : Staircase order (order - 1) (npRun order m (order - 1)) :=
    np_staircase order m hnp (order - 1) (le_refl _)
  have htri : (toMat order (npRun order m (order - 1))).BlockTriangular id := by
    intro t j hjt
    have hj : (j : ℕ) < order - 1 := by
      have := t.isLt
      simp only [id_eq] at hjt
      omega
    exact hstU j.1 hj t.1 hjt t.isLt
  have hval : calcDeterminants order m = (toMat order m).det := by
    unfold calcDeterminants
    rw [(hsim order (le_refl _)).2 h1]
    rw [hprod, ← diagProd_eq_range_prod, diagProd_eq_det_diag,
      ← Matrix.det_of_upperTriangular htri]
    exact np_det order m (order - 1) (le_refl _)
  have hflag : (getDeterminant order m).2 = false := by
    rw [dz_false_iff_leadCols_indep]
    have hUind := staircase_leadCols_indep order _ hstU (fun j hj => by
      rw [hU j (by omega)]
      exact hnp j hj)
    exact (colsEquiv_npRun order m (order - 1) (le_refl _) (order - 1)
      (fun j => ⟨j.1, Nat.lt_of_lt_of_le j.isLt (Nat.sub_le order 1)⟩)).mp hUind
  refine ⟨?_, hflag⟩
  rw [hval, getDeterminant_fst_eq_det]

theorem C1_witness :
    (1 ≤ 2 ∧ ∀ it, it < 2 - 1 → (cudaRun 2 sampleMat it).1 it it ≠ 0) ∧
    (calcDeterminants 2 sampleMat = (getDeterminant 2 sampleMat).1 ∧
      (getDeterminant 2 sampleMat).2 = false) :=
  ⟨⟨by decide, by
      intro it hit
      have h0 : it = 0 := by omega
      rw [h0]
      show sampleMat 0 0 ≠ 0
      simp [sampleMat]⟩,
    C1_parallel_matches_sequential_without_zero_pivots 2 sampleMat (by decide)
      (by
        intro it hit
        have h0 : it = 0 := by omega
        rw [h0]
        show sampleMat 0 0 ≠ 0
        simp [sampleMat])⟩
